import Mathlib

/-!
Shallow embedding of `src/engine/autocompleter.py`: the `_SuggestionTree`
match-tree builder, its path enumeration, and the `Autocompleter` class with
its LRU-cached `_suggestion_paths` / `suggestions` operations, together with
theorems about the specified properties.

Python machine model used throughout:
* `value.split(" ")` is embedded as `splitSpaces` (split on every single
  space character, keeping empty pieces);
* `re.split(r"\W+", text)` (the default `words_split_regex`) is embedded as
  `tokenize`, splitting on maximal runs of non-word characters, where a word
  character is an ASCII alphanumeric or underscore;
* list slicing `xs[a:b]` clamps out-of-range bounds, which `List.drop`/
  `List.take` also do;
* `functools.lru_cache` is embedded as `LruCache`: most-recently-used entry
  first, promotion on hit, insertion plus least-recently-used eviction on
  miss, and (for the `Except` variant) no insertion when the computation
  raises.
-/

namespace Autocompletion

/-- Modelled from the spec: the `Term` class lives in the repository's
`engine/term_index.py`, which is not part of the provided sources; the spec
says a Term carries at least a textual `value`. -/
structure Term where
  value : String
deriving DecidableEq, Repr

/-- Modelled from the spec: the `TermIndex` interface from
`engine/term_index.py` (not in the provided sources); `search` takes a single
word and returns an ordered list of candidate Terms. -/
structure TermIndex where
  search : String → List Term

/-- Embedding of Python `value.split(" ")`: split at every single space
character, keeping empty pieces (so the result is never empty). `acc` holds
the characters of the current piece in reverse. -/
def splitSpaces : List Char → List Char → List String
  | [], acc => [String.mk acc.reverse]
  | c :: rest, acc =>
      if c = ' ' then String.mk acc.reverse :: splitSpaces rest []
      else splitSpaces rest (c :: acc)

/-- `len(result.value.split(" "))` from `_SuggestionTree.__init__`. -/
def wordCount (s : String) : Nat :=
  (splitSpaces s.data []).length

/-- Embedding of Python `child_term.value.startswith(text)`. -/
def strStartsWith (s pre : String) : Bool :=
  pre.data.isPrefixOf s.data

/-- A word character in the sense of the default `\W+` split pattern
(ASCII reading of the regex class `\w`). -/
def wordChar (c : Char) : Bool :=
  c.isAlphanum || c = '_'

mutual

/-- Embedding of `re.split(r"\W+", text)` on a character list, state "inside
a word": `acc` holds the current token's characters in reverse. -/
def splitInWord : List Char → List Char → List String
  | [], acc => [String.mk acc.reverse]
  | c :: rest, acc =>
      if wordChar c then splitInWord rest (c :: acc)
      else String.mk acc.reverse :: splitInSep rest

/-- Embedding of `re.split(r"\W+", text)`, state "inside a separator run". -/
def splitInSep : List Char → List String
  | [] => [""]
  | c :: rest =>
      if wordChar c then splitInWord rest [c]
      else splitInSep rest

end

/-- Embedding of `regex_split(self.words_split_regex, input_text)` for the
default pattern `r"\W+"`: split on maximal runs of non-word characters,
keeping empty tokens at the edges. -/
def tokenize (text : String) : List String :=
  splitInWord text.data []

/-- The `_SuggestionTree` class: a match-tree node with an optional term
(`None` exactly at the synthetic root), a half-open token span, and an
ordered list of children. -/
inductive _SuggestionTree : Type where
  | node (term : Option Term) (start_index : Nat) (end_index : Nat)
      (children : List _SuggestionTree)
deriving Repr

def _SuggestionTree.term : _SuggestionTree → Option Term
  | .node t _ _ _ => t

def _SuggestionTree.start_index : _SuggestionTree → Nat
  | .node _ s _ _ => s

def _SuggestionTree.end_index : _SuggestionTree → Nat
  | .node _ _ e _ => e

def _SuggestionTree.children : _SuggestionTree → List _SuggestionTree
  | .node _ _ _ cs => cs

/-- One candidate of the loop body in `_SuggestionTree.__init__`: the
acceptance test `child_term.value.startswith(" ".join(word_list[child_start_index:child_end_index]))`. -/
def acceptCandidate (word_list : List String) (end_index : Nat) (child_term : Term) : Bool :=
  strStartsWith child_term.value
    (String.intercalate " "
      ((word_list.drop end_index).take (wordCount child_term.value)))

/-- Fuel-indexed embedding of `_SuggestionTree.__init__`: constructs the node
and, unless it is out of words (`end_index >= len(word_list)`), queries
`term_index.search(word_list[end_index])` and recursively constructs one
child per accepted candidate, in result order. The fuel only bounds the
recursion depth; `buildFuel_congr` shows any fuel of at least
`word_list.length - end_index` gives the same tree. -/
def _SuggestionTree.buildFuel (fuel : Nat) (word_list : List String)
    (term_index : TermIndex) (term : Option Term)
    (start_index end_index : Nat) : _SuggestionTree :=
  match fuel with
  | 0 => .node term start_index end_index []
  | fuel + 1 =>
      if word_list.length ≤ end_index then .node term start_index end_index []
      else
        .node term start_index end_index
          ((term_index.search (word_list.getD end_index "")).filterMap
            fun child_term =>
              if acceptCandidate word_list end_index child_term then
                some (_SuggestionTree.buildFuel fuel word_list term_index
                  (some child_term) end_index
                  (end_index + wordCount child_term.value))
              else none)

/-- `_SuggestionTree(term, start_index, end_index, word_list, term_index)`,
with fuel fixed large enough (`buildFuel_congr` makes the choice immaterial). -/
def _SuggestionTree.build (word_list : List String) (term_index : TermIndex)
    (term : Option Term) (start_index end_index : Nat) : _SuggestionTree :=
  _SuggestionTree.buildFuel (word_list.length - end_index) word_list term_index
    term start_index end_index

/-- `_SuggestionTree.root(word_list, term_index)`. -/
def _SuggestionTree.root (word_list : List String) (term_index : TermIndex) :
    _SuggestionTree :=
  _SuggestionTree.build word_list term_index none 0 0

mutual

/-- `_SuggestionTree.paths`: `[[self]]` for a leaf, otherwise
`[[self] + child_path for child in self.children for child_path in child.paths()]`
(the shared `[self] + ·` is factored out of the double comprehension). -/
def _SuggestionTree.paths : _SuggestionTree → List (List _SuggestionTree)
  | .node term s e children =>
      match children with
      | [] => [[.node term s e []]]
      | c :: cs =>
          (childPaths (c :: cs)).map
            fun child_path => .node term s e (c :: cs) :: child_path

/-- Concatenation of `child.paths()` over a child list, in order: the
flattening performed by Python's double list comprehension. -/
def childPaths : List _SuggestionTree → List (List _SuggestionTree)
  | [] => []
  | c :: cs => c.paths ++ childPaths cs

end

/-- `path[-1].end_index` for a suggestion path (paths are never empty). -/
def lastEndIndex (path : List _SuggestionTree) : Nat :=
  match path.getLast? with
  | some n => n.end_index
  | none => 0

/-- The `Autocompleter` class: holds the term index and the word-split
pattern. The embedding interprets `words_split_regex` only for the default
value `r"\W+"` (the `tokenize` function); the claims under study never vary
the pattern. -/
structure Autocompleter where
  term_index : TermIndex
  words_split_regex : String := "\\W+"

/-- `Autocompleter.suggestion_paths_cache_size`, a class variable read once
when the `lru_cache` decorator is applied. -/
def suggestion_paths_cache_size : Nat := 128

/-- The `paths` local of `Autocompleter._suggestion_paths`: every ancestry
path starting at a child of the synthetic root, before coverage filtering
(`[path for root_child in root.children for path in root_child.paths()]`). -/
def Autocompleter.enumerated_paths (a : Autocompleter) (input_text : String) :
    List (List _SuggestionTree) :=
  (_SuggestionTree.root (tokenize input_text) a.term_index).children.flatMap
    _SuggestionTree.paths

/-- The body of `Autocompleter._suggestion_paths` (the value computed on a
cache miss): tokenize, build the tree, enumerate root-child paths, and keep
those with `path[-1].end_index >= len(input_words)`. -/
def Autocompleter._suggestion_paths (a : Autocompleter) (input_text : String) :
    List (List _SuggestionTree) :=
  (a.enumerated_paths input_text).filter
    fun path => (tokenize input_text).length ≤ lastEndIndex path

/-- The projection performed by `Autocompleter.suggestions`:
`[[node.term for node in path] for path in suggestion_paths]`. Nodes on
suggestion paths always carry a term (the root is excluded); the `getD`
default is never used. -/
def projectTerms (paths : List (List _SuggestionTree)) : List (List Term) :=
  paths.map fun path => path.map fun n => n.term.getD ⟨""⟩

/-- State of a `functools.lru_cache`: entries most-recently-used first. -/
structure LruCache (α β : Type) where
  entries : List (α × β)

/-- `lru_cache` lookup: the value stored for a key, if any. -/
def LruCache.lookup [DecidableEq α] (c : LruCache α β) (k : α) : Option β :=
  (c.entries.find? fun e => decide (e.1 = k)).map Prod.snd

/-- One call through a `functools.lru_cache`-decorated function of capacity
`cap`: on a hit the entry is promoted to most-recently-used and its stored
value returned without recomputation; on a miss the function is invoked, the
result stored, and the least-recently-used entry evicted if the cache is
over capacity. -/
def LruCache.call [DecidableEq α] (c : LruCache α β) (cap : Nat) (f : α → β)
    (k : α) : β × LruCache α β :=
  match c.entries.find? fun e => decide (e.1 = k) with
  | some e =>
      (e.2, ⟨(e.1, e.2) :: c.entries.eraseP fun e' => decide (e'.1 = k)⟩)
  | none =>
      let v := f k
      (v, ⟨((k, v) :: c.entries).take cap⟩)

/-- An `Autocompleter` instance together with the memo state of its
`lru_cache`-decorated `_suggestion_paths` method. -/
structure AutocompleterState where
  autocompleter : Autocompleter
  cache : LruCache String (List (List _SuggestionTree))

/-- A freshly constructed `Autocompleter`: empty cache. -/
def AutocompleterState.init (a : Autocompleter) : AutocompleterState :=
  ⟨a, ⟨[]⟩⟩

/-- The cached method `Autocompleter._suggestion_paths` as observed at run
time: consult the LRU cache keyed by `input_text`, computing the body only
on a miss. -/
def AutocompleterState.suggestion_paths (s : AutocompleterState)
    (input_text : String) :
    List (List _SuggestionTree) × AutocompleterState :=
  let r := s.cache.call suggestion_paths_cache_size
    s.autocompleter._suggestion_paths input_text
  (r.1, ⟨s.autocompleter, r.2⟩)

/-- `Autocompleter.suggestions`: call the cached `_suggestion_paths` and
rebuild the results as fresh term lists. -/
def AutocompleterState.suggestions (s : AutocompleterState)
    (input_text : String) : List (List Term) × AutocompleterState :=
  let r := s.suggestion_paths input_text
  (projectTerms r.1, r.2)

/-- `InTree r n`: the node `n` occurs in the tree rooted at `r` (reflexive
descendant relation through `children`). -/
inductive InTree (r : _SuggestionTree) : _SuggestionTree → Prop
  | refl : InTree r r
  | step {n c : _SuggestionTree} : InTree r n → c ∈ n.children → InTree r c

/-- The invariant carried by every non-root node of a built tree: it wraps a
term accepted at its start position, its span length is the term's word
count, and the node is itself the tree built over that span. -/
def childOk (wl : List String) (ti : TermIndex) (n : _SuggestionTree) : Prop :=
  ∃ t : Term, n.term = some t ∧
    n.end_index = n.start_index + wordCount t.value ∧
    acceptCandidate wl n.start_index t = true ∧
    n = _SuggestionTree.build wl ti (some t) n.start_index n.end_index

mutual

/-- Height (number of edges on a longest chain) of a match-tree node. -/
def _SuggestionTree.height : _SuggestionTree → Nat
  | .node _ _ _ children => heightList children

/-- One plus the largest height among a list of subtrees (`0` if empty). -/
def heightList : List _SuggestionTree → Nat
  | [] => 0
  | c :: cs => Nat.max (c.height + 1) (heightList cs)

end

/-- `LeafPath t p`: `p` is the ancestry path from `t` down to one of the
leaves below it, as enumerated by `_SuggestionTree.paths`. -/
inductive LeafPath : _SuggestionTree → List _SuggestionTree → Prop
  | leaf (t : _SuggestionTree) : t.children = [] → LeafPath t [t]
  | cons (t : _SuggestionTree) {c : _SuggestionTree} {p : List _SuggestionTree} :
      c ∈ t.children → LeafPath c p → LeafPath t (t :: p)

/-- Word count of the term stored at a node (the projection used when a
suggestion path is summed up; the default is never hit on real paths). -/
def nodeWordCount (n : _SuggestionTree) : Nat :=
  wordCount ((n.term.getD ⟨""⟩).value)

/-- `self.suggestion_paths_cache_size` as read on any instance: Python
attribute lookup falls back to the class variable, so every constructed
instance observes the same class-level constant; no constructor argument
influences it. -/
def Autocompleter.cache_capacity (_ : Autocompleter) : Nat :=
  suggestion_paths_cache_size

/-- Issue a sequence of queries against an engine, threading the cache. -/
def runTexts (s : AutocompleterState) (texts : List String) :
    AutocompleterState :=
  texts.foldl (fun st t => (st.suggestions t).2) s

/-- Modelled from the spec: a Term Lookup whose `search` can fail ("e.g.,
backing store unavailable"); the exceptional control flow of a Python
`search` call is embedded with `Except`. -/
structure TermIndexE where
  search : String → Except String (List Term)

/-- Processing of the search-result loop of `_SuggestionTree.__init__` when
child construction itself may raise: children are built left to right and
the first raised error aborts the whole construction. `build1` constructs
one child. -/
def collectChildrenE (build1 : Term → Except String _SuggestionTree)
    (word_list : List String) (end_index : Nat) :
    List Term → Except String (List _SuggestionTree)
  | [] => .ok []
  | t :: ts =>
      if acceptCandidate word_list end_index t then
        match build1 t with
        | .error err => .error err
        | .ok c =>
            match collectChildrenE build1 word_list end_index ts with
            | .error err => .error err
            | .ok cs => .ok (c :: cs)
      else collectChildrenE build1 word_list end_index ts

/-- `_SuggestionTree.__init__` against a fallible term index: any `search`
error propagates unchanged (the Python code has no exception handler). -/
def _SuggestionTree.buildFuelE (fuel : Nat) (word_list : List String)
    (term_index : TermIndexE) (term : Option Term)
    (start_index end_index : Nat) : Except String _SuggestionTree :=
  match fuel with
  | 0 => .ok (.node term start_index end_index [])
  | fuel + 1 =>
      if word_list.length ≤ end_index then
        .ok (.node term start_index end_index [])
      else
        match term_index.search (word_list.getD end_index "") with
        | .error err => .error err
        | .ok results =>
            match collectChildrenE
                (fun child_term =>
                  _SuggestionTree.buildFuelE fuel word_list term_index
                    (some child_term) end_index
                    (end_index + wordCount child_term.value))
                word_list end_index results with
            | .error err => .error err
            | .ok children => .ok (.node term start_index end_index children)

/-- The `Autocompleter` class over a fallible term index. -/
structure AutocompleterE where
  term_index : TermIndexE
  words_split_regex : String := "\\W+"

/-- Body of `Autocompleter._suggestion_paths` when `search` may raise: the
error is propagated, not replaced by an empty result. -/
def AutocompleterE._suggestion_paths (a : AutocompleterE)
    (input_text : String) : Except String (List (List _SuggestionTree)) :=
  match _SuggestionTree.buildFuelE (tokenize input_text).length
      (tokenize input_text) a.term_index none 0 0 with
  | .error err => .error err
  | .ok root =>
      .ok ((root.children.flatMap _SuggestionTree.paths).filter
        fun path => (tokenize input_text).length ≤ lastEndIndex path)

/-- One call through `functools.lru_cache` when the wrapped function may
raise: a raised call returns the error to the caller and stores nothing. -/
def LruCache.callE {α β ε : Type} [DecidableEq α] (c : LruCache α β)
    (cap : Nat) (f : α → Except ε β) (k : α) :
    Except ε β × LruCache α β :=
  match c.entries.find? fun e => decide (e.1 = k) with
  | some e =>
      (.ok e.2, ⟨(e.1, e.2) :: c.entries.eraseP fun e' => decide (e'.1 = k)⟩)
  | none =>
      match f k with
      | .error err => (.error err, c)
      | .ok v => (.ok v, ⟨((k, v) :: c.entries).take cap⟩)

/-- Engine state over a fallible term index. -/
structure AutocompleterStateE where
  autocompleter : AutocompleterE
  cache : LruCache String (List (List _SuggestionTree))

/-- The cached `_suggestion_paths` method over a fallible term index. -/
def AutocompleterStateE.suggestion_paths (s : AutocompleterStateE)
    (input_text : String) :
    Except String (List (List _SuggestionTree)) × AutocompleterStateE :=
  let r := s.cache.callE suggestion_paths_cache_size
    s.autocompleter._suggestion_paths input_text
  (r.1, ⟨s.autocompleter, r.2⟩)

/-- `Autocompleter.suggestions` over a fallible term index: the projection
runs only on a successful path list; errors pass through. -/
def AutocompleterStateE.suggestions (s : AutocompleterStateE)
    (input_text : String) :
    Except String (List (List Term)) × AutocompleterStateE :=
  match s.suggestion_paths input_text with
  | (.error err, s') => (.error err, s')
  | (.ok v, s') => (.ok (projectTerms v), s')

/-- A mutable Python list object reachable from a `suggestions` result:
either an inner list of Terms or the outer list of references to inner
lists. -/
inductive PyObj where
  | listTerms (elems : List Term)
  | listRefs (ids : List Nat)
deriving DecidableEq, Repr

/-- A heap of Python list objects: an association of object ids to current
contents, plus the allocation counter (every live id is below `next`). -/
structure Heap where
  objs : List (Nat × PyObj)
  next : Nat

/-- All object ids on the heap were allocated before the counter. -/
def Heap.Wf (h : Heap) : Prop :=
  ∀ e ∈ h.objs, e.1 < h.next

/-- Dereference an object id. -/
def Heap.get (h : Heap) (id : Nat) : Option PyObj :=
  (h.objs.find? fun e => decide (e.1 = id)).map Prod.snd

/-- In-place mutation of the object with the given id (a no-op for a dead
id): the model of a caller mutating a list it was handed. -/
def Heap.set (h : Heap) (id : Nat) (v : PyObj) : Heap :=
  ⟨h.objs.map fun e => if e.1 = id then (id, v) else e, h.next⟩

/-- Allocate one fresh inner list per suggestion path, holding that path's
terms — the inner list comprehension `[node.term for node in path]`. Returns
the fresh ids in path order. -/
def allocInner (paths : List (List _SuggestionTree)) (h : Heap) :
    List Nat × Heap :=
  match paths with
  | [] => ([], h)
  | p :: rest =>
      let id := h.next
      let h1 : Heap :=
        ⟨h.objs ++ [(id, .listTerms (p.map fun n => n.term.getD ⟨""⟩))],
          h.next + 1⟩
      let r := allocInner rest h1
      (id :: r.1, r.2)

/-- The allocation performed by one `Autocompleter.suggestions` call on the
cached path list: fresh inner lists, then a fresh outer list referencing
them. Returns the outer list's id. -/
def allocSuggestions (paths : List (List _SuggestionTree)) (h : Heap) :
    Nat × Heap :=
  let r := allocInner paths h
  (r.2.next, ⟨r.2.objs ++ [(r.2.next, .listRefs r.1)], r.2.next + 1⟩)

/-- Read back the contents a caller sees through a returned outer list id:
the outer list's inner lists' term contents, in order. -/
def readSuggestions (h : Heap) (outer : Nat) :
    Option (List (Option (List Term))) :=
  match h.get outer with
  | some (.listRefs ids) =>
      some (ids.map fun id =>
        match h.get id with
        | some (.listTerms ts) => some ts
        | _ => none)
  | _ => none

/-- Reading a list of inner-list ids back from a heap. -/
def readIds (h : Heap) (ids : List Nat) : List (Option (List Term)) :=
  ids.map fun id =>
    match h.get id with
    | some (.listTerms ts) => some ts
    | _ => none

/-- Concrete index realizing the spec scenario
`{"new": [Term("new york"), Term("new jersey")]}`. -/
def tiNY : TermIndex :=
  ⟨fun w => if w = "new" then [⟨"new york"⟩, ⟨"new jersey"⟩] else []⟩

/-- Concrete index knowing only the single one-word term `"ab"`. -/
def ti0 : TermIndex :=
  ⟨fun w => if w = "ab" then [⟨"ab"⟩] else []⟩

/-- Concrete index with no entries at all. -/
def tiEmpty : TermIndex := ⟨fun _ => []⟩

/-- Concrete fallible index whose backing store is unavailable. -/
def tiFail : TermIndexE := ⟨fun _ => .error "backing store unavailable"⟩

/-- 129 pairwise-distinct input texts (one more than the cache capacity). -/
def manyTexts : List String :=
  (List.range 129).map fun i => String.mk (List.replicate i 'a')

/-- A concretely full 128-entry cache with pairwise-distinct keys. -/
def fullEntries : List (String × List (List _SuggestionTree)) :=
  (List.range 128).map fun i => (String.mk (List.replicate i 'a'), [])

theorem splitSpaces_length_pos (cs acc : List Char) :
    1 ≤ (splitSpaces cs acc).length := by
  induction cs generalizing acc with
  | nil => simp [splitSpaces]
  | cons c rest ih =>
      by_cases h : c = ' '
      · simp only [splitSpaces, h, if_true, List.length_cons]
        exact Nat.le_add_right_of_le (ih [])
      · simpa [splitSpaces, h] using ih (c :: acc)

theorem wordCount_pos (s : String) : 1 ≤ wordCount s :=
  splitSpaces_length_pos s.data []

theorem buildFuel_congr (word_list : List String) (term_index : TermIndex) :
    ∀ f g term start_index end_index,
      word_list.length - end_index ≤ f → word_list.length - end_index ≤ g →
      _SuggestionTree.buildFuel f word_list term_index term start_index end_index =
        _SuggestionTree.buildFuel g word_list term_index term start_index end_index := by
  intro f
  induction f with
  | zero =>
      intro g term s e hf _
      match g with
      | 0 => rfl
      | g + 1 =>
          have he : word_list.length ≤ e := by omega
          simp [_SuggestionTree.buildFuel, he]
  | succ f ih =>
      intro g term s e hf hg
      match g with
      | 0 =>
          have he : word_list.length ≤ e := by omega
          simp [_SuggestionTree.buildFuel, he]
      | g + 1 =>
          by_cases he : word_list.length ≤ e
          · simp [_SuggestionTree.buildFuel, he]
          · simp only [_SuggestionTree.buildFuel, he, if_false]
            congr 1
            apply List.filterMap_congr
            intro t _
            by_cases hacc : acceptCandidate word_list e t
            · simp only [hacc, if_true]
              congr 1
              apply ih
              · have := wordCount_pos t.value
                omega
              · have := wordCount_pos t.value
                omega
            · simp [hacc]

/-- Unfolding equation for `build`: one expansion step of
`_SuggestionTree.__init__`, with the recursive occurrences again `build`. -/
theorem build_unfold (word_list : List String) (term_index : TermIndex)
    (term : Option Term) (start_index end_index : Nat) :
    _SuggestionTree.build word_list term_index term start_index end_index =
      if word_list.length ≤ end_index then
        .node term start_index end_index []
      else
        .node term start_index end_index
          ((term_index.search (word_list.getD end_index "")).filterMap
            fun child_term =>
              if acceptCandidate word_list end_index child_term then
                some (_SuggestionTree.build word_list term_index
                  (some child_term) end_index
                  (end_index + wordCount child_term.value))
              else none) := by
  by_cases he : word_list.length ≤ end_index
  · have h0 : word_list.length - end_index = 0 := by omega
    simp only [_SuggestionTree.build, h0, _SuggestionTree.buildFuel, he, if_true]
  · have h1 : ∃ k, word_list.length - end_index = k + 1 := by
      refine ⟨word_list.length - end_index - 1, by omega⟩
    obtain ⟨k, hk⟩ := h1
    simp only [_SuggestionTree.build, hk, _SuggestionTree.buildFuel, he, if_false]
    congr 1
    apply List.filterMap_congr
    intro t _
    by_cases hacc : acceptCandidate word_list end_index t
    · simp only [hacc, if_true]
      congr 1
      apply buildFuel_congr
      · have := wordCount_pos t.value
        omega
      · omega
    · simp [hacc]

theorem buildFuel_term (f : Nat) (wl : List String) (ti : TermIndex)
    (tm : Option Term) (s e : Nat) :
    (_SuggestionTree.buildFuel f wl ti tm s e).term = tm := by
  cases f with
  | zero => rfl
  | succ f =>
      by_cases h : wl.length ≤ e <;>
        simp [_SuggestionTree.buildFuel, h, _SuggestionTree.term]

theorem buildFuel_start (f : Nat) (wl : List String) (ti : TermIndex)
    (tm : Option Term) (s e : Nat) :
    (_SuggestionTree.buildFuel f wl ti tm s e).start_index = s := by
  cases f with
  | zero => rfl
  | succ f =>
      by_cases h : wl.length ≤ e <;>
        simp [_SuggestionTree.buildFuel, h, _SuggestionTree.start_index]

theorem buildFuel_end (f : Nat) (wl : List String) (ti : TermIndex)
    (tm : Option Term) (s e : Nat) :
    (_SuggestionTree.buildFuel f wl ti tm s e).end_index = e := by
  cases f with
  | zero => rfl
  | succ f =>
      by_cases h : wl.length ≤ e <;>
        simp [_SuggestionTree.buildFuel, h, _SuggestionTree.end_index]

theorem build_term (wl : List String) (ti : TermIndex) (tm : Option Term)
    (s e : Nat) : (_SuggestionTree.build wl ti tm s e).term = tm :=
  buildFuel_term _ _ _ _ _ _

theorem build_start (wl : List String) (ti : TermIndex) (tm : Option Term)
    (s e : Nat) : (_SuggestionTree.build wl ti tm s e).start_index = s :=
  buildFuel_start _ _ _ _ _ _

theorem build_end (wl : List String) (ti : TermIndex) (tm : Option Term)
    (s e : Nat) : (_SuggestionTree.build wl ti tm s e).end_index = e :=
  buildFuel_end _ _ _ _ _ _

/-- Membership in the children of a constructed node: exactly the accepted
search results, each built over the span starting at the parent's end. -/
theorem mem_children_build {wl : List String} {ti : TermIndex}
    {tm : Option Term} {s e : Nat} {c : _SuggestionTree} :
    c ∈ (_SuggestionTree.build wl ti tm s e).children ↔
      ¬ wl.length ≤ e ∧ ∃ t, t ∈ ti.search (wl.getD e "") ∧
        acceptCandidate wl e t = true ∧
        c = _SuggestionTree.build wl ti (some t) e (e + wordCount t.value) := by
  rw [build_unfold]
  by_cases he : wl.length ≤ e
  · simp [he, _SuggestionTree.children]
  · simp only [he, if_false, _SuggestionTree.children, List.mem_filterMap,
      false_and, not_false_iff, true_and]
    constructor
    · rintro ⟨t, ht, hc⟩
      by_cases hacc : acceptCandidate wl e t
      · simp only [hacc, if_true, Option.some.injEq] at hc
        exact ⟨t, ht, hacc, hc.symm⟩
      · simp [hacc] at hc
    · rintro ⟨t, ht, hacc, rfl⟩
      exact ⟨t, ht, by simp [hacc]⟩

theorem inTree_trans {r m n : _SuggestionTree} (h1 : InTree r m)
    (h2 : InTree m n) : InTree r n := by
  induction h2 with
  | refl => exact h1
  | step _ hc ih => exact InTree.step ih hc

theorem inTree_cases {r n : _SuggestionTree} (h : InTree r n) :
    n = r ∨ ∃ c ∈ r.children, InTree c n := by
  induction h with
  | refl => exact Or.inl rfl
  | step _ hc ih =>
      rename_i m c _
      rcases ih with rfl | ⟨c', hc', hin⟩
      · exact Or.inr ⟨c, hc, InTree.refl⟩
      · exact Or.inr ⟨c', hc', InTree.step hin hc⟩

theorem childOk_of_child {wl : List String} {ti : TermIndex} {tm : Option Term}
    {s e : Nat} {c : _SuggestionTree}
    (hc : c ∈ (_SuggestionTree.build wl ti tm s e).children) :
    c.start_index = e ∧ childOk wl ti c := by
  rw [mem_children_build] at hc
  obtain ⟨-, t, -, hacc, rfl⟩ := hc
  refine ⟨build_start .., ⟨t, build_term .., ?_, ?_, ?_⟩⟩
  · rw [build_start, build_end]
  · rw [build_start]
    exact hacc
  · rw [build_start, build_end]

/-- Master structural lemma: every node occurring in a built tree is either
the top node of that build or satisfies `childOk`. -/
theorem inTree_build {wl : List String} {ti : TermIndex} :
    ∀ k e tm s n, wl.length - e ≤ k →
      InTree (_SuggestionTree.build wl ti tm s e) n →
      n = _SuggestionTree.build wl ti tm s e ∨ childOk wl ti n := by
  intro k
  induction k with
  | zero =>
      intro e tm s n hk hin
      rcases inTree_cases hin with rfl | ⟨c, hc, -⟩
      · exact Or.inl rfl
      · rw [mem_children_build] at hc
        exact absurd hc (by omega)
  | succ k ih =>
      intro e tm s n hk hin
      rcases inTree_cases hin with rfl | ⟨c, hc, hin'⟩
      · exact Or.inl rfl
      · right
        have hco := childOk_of_child hc
        rw [mem_children_build] at hc
        obtain ⟨he, t, -, -, rfl⟩ := hc
        have hw := wordCount_pos t.value
        have hm : wl.length - (e + wordCount t.value) ≤ k := by omega
        rcases ih (e + wordCount t.value) (some t) e n hm hin' with rfl | hok
        · exact hco.2
        · exact hok

/-- Every node of a built tree is the build over its own recorded span. -/
theorem inTree_self_build {wl : List String} {ti : TermIndex}
    {tm : Option Term} {s e : Nat} {n : _SuggestionTree}
    (h : InTree (_SuggestionTree.build wl ti tm s e) n) :
    n = _SuggestionTree.build wl ti n.term n.start_index n.end_index := by
  rcases inTree_build (wl.length - e) e tm s n le_rfl h with rfl | hok
  · rw [build_term, build_start, build_end]
  · obtain ⟨t, ht, -, -, hself⟩ := hok
    rw [ht]
    exact hself

theorem heightList_le {l : List _SuggestionTree} {k : Nat}
    (h : ∀ c ∈ l, c.height + 1 ≤ k) : heightList l ≤ k := by
  induction l with
  | nil => simp [heightList]
  | cons c cs ih =>
      simp only [heightList, Nat.max_le]
      exact ⟨h c (by simp), ih fun c' hc' => h c' (by simp [hc'])⟩

theorem height_node (tm : Option Term) (s e : Nat)
    (cs : List _SuggestionTree) :
    (_SuggestionTree.node tm s e cs).height = heightList cs := rfl

theorem buildFuel_height {wl : List String} {ti : TermIndex} :
    ∀ k f tm s e, wl.length - e ≤ k →
      (_SuggestionTree.buildFuel f wl ti tm s e).height ≤ wl.length - e := by
  intro k
  induction k with
  | zero =>
      intro f tm s e hk
      have he : wl.length ≤ e := by omega
      cases f with
      | zero => simp [_SuggestionTree.buildFuel, height_node, heightList]
      | succ f => simp [_SuggestionTree.buildFuel, he, height_node, heightList]
  | succ k ih =>
      intro f tm s e hk
      cases f with
      | zero => simp [_SuggestionTree.buildFuel, height_node, heightList]
      | succ f =>
          by_cases he : wl.length ≤ e
          · simp [_SuggestionTree.buildFuel, he, height_node, heightList]
          · simp only [_SuggestionTree.buildFuel, he, if_false, height_node]
            apply heightList_le
            intro c hc
            simp only [List.mem_filterMap] at hc
            obtain ⟨t, -, hct⟩ := hc
            by_cases hacc : acceptCandidate wl e t
            · simp only [hacc, if_true, Option.some.injEq] at hct
              subst hct
              have hw := wordCount_pos t.value
              have := ih f (some t) e (e + wordCount t.value) (by omega)
              omega
            · simp [hacc] at hct

theorem build_height (wl : List String) (ti : TermIndex) (tm : Option Term)
    (s e : Nat) :
    (_SuggestionTree.build wl ti tm s e).height ≤ wl.length - e :=
  buildFuel_height (wl.length - e) _ _ _ _ le_rfl

theorem leafPath_ne_nil {t : _SuggestionTree} {p : List _SuggestionTree}
    (h : LeafPath t p) : p ≠ [] := by
  cases h <;> simp

theorem leafPath_head {t : _SuggestionTree} {p : List _SuggestionTree}
    (h : LeafPath t p) : ∃ q, p = t :: q := by
  cases h with
  | leaf _ _ => exact ⟨[], rfl⟩
  | cons _ _ _ => exact ⟨_, rfl⟩

theorem leafPath_mem_inTree {t : _SuggestionTree} {p : List _SuggestionTree}
    (h : LeafPath t p) : ∀ n ∈ p, InTree t n := by
  induction h with
  | leaf t _ =>
      intro n hn
      simp only [List.mem_singleton] at hn
      subst hn
      exact InTree.refl
  | cons t hc _ ih =>
      intro n hn
      rcases List.mem_cons.mp hn with rfl | hn'
      · exact InTree.refl
      · exact inTree_trans (InTree.step InTree.refl hc) (ih n hn')

theorem mem_childPaths {l : List _SuggestionTree} {p : List _SuggestionTree} :
    p ∈ childPaths l ↔ ∃ c ∈ l, p ∈ c.paths := by
  induction l with
  | nil => simp [childPaths]
  | cons c cs ih => simp [childPaths, ih, List.mem_append]

theorem sizeOf_lt_of_mem_children {c t : _SuggestionTree}
    (h : c ∈ t.children) : sizeOf c < sizeOf t := by
  obtain ⟨tm, s, e, cs⟩ := t
  simp only [_SuggestionTree.children] at h
  have h1 := List.sizeOf_lt_of_mem h
  simp only [_SuggestionTree.node.sizeOf_spec]
  omega

/-- The enumeration `_SuggestionTree.paths` lists exactly the `LeafPath`s. -/
theorem mem_paths_iff_aux :
    ∀ k (t : _SuggestionTree), sizeOf t ≤ k →
      ∀ p, p ∈ t.paths ↔ LeafPath t p := by
  intro k
  induction k with
  | zero =>
      intro t hk
      obtain ⟨tm, s, e, cs⟩ := t
      simp [_SuggestionTree.node.sizeOf_spec] at hk
  | succ k ih =>
      intro t hk p
      obtain ⟨tm, s, e, cs⟩ := t
      match cs with
      | [] =>
          simp only [_SuggestionTree.paths, List.mem_singleton]
          constructor
          · rintro rfl
            exact LeafPath.leaf _ rfl
          · intro h
            cases h with
            | leaf _ _ => rfl
            | cons _ hc _ => simp [_SuggestionTree.children] at hc
      | c :: cs' =>
          simp only [_SuggestionTree.paths, List.mem_map]
          constructor
          · rintro ⟨q, hq, rfl⟩
            rw [mem_childPaths] at hq
            obtain ⟨c', hc', hq'⟩ := hq
            have hsz : sizeOf c' ≤ k := by
              have := sizeOf_lt_of_mem_children
                (t := .node tm s e (c :: cs')) (c := c') hc'
              omega
            exact LeafPath.cons _ hc' ((ih c' hsz q).mp hq')
          · intro h
            cases h with
            | leaf _ hleaf => simp [_SuggestionTree.children] at hleaf
            | cons _ hc' hq =>
                rename_i cnode q
                refine ⟨q, ?_, rfl⟩
                rw [mem_childPaths]
                have hsz : sizeOf cnode ≤ k := by
                  have := sizeOf_lt_of_mem_children
                    (t := .node tm s e (c :: cs')) hc'
                  omega
                exact ⟨cnode, hc', (ih cnode hsz q).mpr hq⟩

theorem mem_paths_iff {t : _SuggestionTree} {p : List _SuggestionTree} :
    p ∈ t.paths ↔ LeafPath t p :=
  mem_paths_iff_aux (sizeOf t) t le_rfl p

theorem childOk_children {wl : List String} {ti : TermIndex}
    {n c : _SuggestionTree} (hok : childOk wl ti n) (hc : c ∈ n.children) :
    c.start_index = n.end_index ∧ childOk wl ti c := by
  obtain ⟨t, -, -, -, hself⟩ := hok
  rw [hself] at hc
  exact childOk_of_child hc

theorem leafPath_lastEnd {wl : List String} {ti : TermIndex} :
    ∀ {c : _SuggestionTree} {p : List _SuggestionTree}, LeafPath c p →
      childOk wl ti c →
      lastEndIndex p = c.start_index + (p.map nodeWordCount).sum := by
  intro c p h
  induction h with
  | leaf t hleaf =>
      intro hok
      obtain ⟨t', ht', hlen, -, -⟩ := hok
      simp [lastEndIndex, nodeWordCount, ht', hlen]
  | cons t hc hp ih =>
      intro hok
      rename_i cnode q
      obtain ⟨hstart, hok'⟩ := childOk_children hok hc
      obtain ⟨q', rfl⟩ := leafPath_head hp
      obtain ⟨t', ht', hlen, -, -⟩ := hok
      have hlast : lastEndIndex (t :: cnode :: q') = lastEndIndex (cnode :: q') := by
        simp [lastEndIndex, List.getLast?]
      rw [hlast, ih hok']
      simp only [List.map_cons, List.sum_cons, nodeWordCount, ht', Option.getD_some]
      omega

/-- Shared characterization: the enumerated (unfiltered) path list of an
input text contains exactly the root-child-to-leaf paths. -/
theorem mem_enumerated {a : Autocompleter} {input_text : String}
    {p : List _SuggestionTree} :
    p ∈ a.enumerated_paths input_text ↔
      ∃ c ∈ (_SuggestionTree.root (tokenize input_text) a.term_index).children,
        LeafPath c p := by
  simp only [Autocompleter.enumerated_paths, List.mem_flatMap]
  constructor
  · rintro ⟨c, hc, hp⟩
    exact ⟨c, hc, mem_paths_iff.mp hp⟩
  · rintro ⟨c, hc, hp⟩
    exact ⟨c, hc, mem_paths_iff.mpr hp⟩

/-- Shared fact: every enumerated path starts at token index `0` and its
last node's `end_index` is the total word count along the path. -/
theorem enumerated_lastEnd {a : Autocompleter} {input_text : String}
    {p : List _SuggestionTree} (hp : p ∈ a.enumerated_paths input_text) :
    lastEndIndex p = (p.map nodeWordCount).sum := by
  rw [mem_enumerated] at hp
  obtain ⟨c, hc, hpath⟩ := hp
  have h0 := @childOk_of_child (tokenize input_text) a.term_index none 0 0 _ hc
  have := leafPath_lastEnd hpath h0.2
  rw [this, h0.1]
  omega

theorem lru_find?_idem {α β : Type} [DecidableEq α] (c : LruCache α β)
    (cap : Nat) (hcap : 1 ≤ cap) (f : α → β) (k : α) :
    ((c.call cap f k).2.call cap f k).1 = (c.call cap f k).1 := by
  unfold LruCache.call
  cases h : c.entries.find? fun e => decide (e.1 = k) with
  | some e =>
      have he : e.1 = k := by
        have := List.find?_some h
        simpa using this
      simp [List.find?_cons_of_pos, he]
  | none =>
      obtain ⟨cap', rfl⟩ : ∃ cap', cap = cap' + 1 :=
        ⟨cap - 1, by omega⟩
      simp [List.take_succ_cons, List.find?_cons_of_pos]

theorem lru_call_miss {α β : Type} [DecidableEq α] (c : LruCache α β)
    (cap : Nat) (f : α → β) (k : α) (h : c.lookup k = none) :
    (c.call cap f k).1 = f k ∧
      (c.call cap f k).2.entries = ((k, f k) :: c.entries).take cap := by
  have hf : c.entries.find? (fun e => decide (e.1 = k)) = none := by
    unfold LruCache.lookup at h
    cases hx : c.entries.find? fun e => decide (e.1 = k) with
    | none => rfl
    | some e => rw [hx] at h; simp at h
  unfold LruCache.call
  rw [hf]
  exact ⟨rfl, rfl⟩

theorem lru_store_after_miss {α β : Type} [DecidableEq α] (c : LruCache α β)
    (cap : Nat) (hcap : 1 ≤ cap) (f : α → β) (k : α) (h : c.lookup k = none) :
    (c.call cap f k).2.lookup k = some (f k) := by
  obtain ⟨-, h2⟩ := lru_call_miss c cap f k h
  obtain ⟨cap', rfl⟩ : ∃ cap', cap = cap' + 1 := ⟨cap - 1, by omega⟩
  unfold LruCache.lookup
  rw [h2, List.take_succ_cons]
  simp [List.find?_cons]

theorem lru_call_length {α β : Type} [DecidableEq α] (c : LruCache α β)
    (cap : Nat) (f : α → β) (k : α) (h : c.entries.length ≤ cap) :
    (c.call cap f k).2.entries.length ≤ cap := by
  unfold LruCache.call
  cases hx : c.entries.find? fun e => decide (e.1 = k) with
  | some e =>
      have hmem : e ∈ c.entries := List.mem_of_find?_eq_some hx
      have hp : (fun e' : α × β => decide (e'.1 = k)) e = true := by
        have := List.find?_some hx
        simpa using this
      simp only
      rw [List.length_cons, List.length_eraseP_of_mem hmem hp]
      have : 1 ≤ c.entries.length := List.length_pos.mpr (by
        intro h0
        rw [h0] at hmem
        simp at hmem)
      omega
  | none =>
      exact List.length_take_le cap ((k, f k) :: c.entries)

theorem suggestions_cache_length {s : AutocompleterState} {text : String}
    (h : s.cache.entries.length ≤ suggestion_paths_cache_size) :
    ((s.suggestions text).2).cache.entries.length ≤ suggestion_paths_cache_size := by
  unfold AutocompleterState.suggestions AutocompleterState.suggestion_paths
  exact lru_call_length _ _ _ _ h

theorem runTexts_cache_length (s : AutocompleterState) (texts : List String)
    (h : s.cache.entries.length ≤ suggestion_paths_cache_size) :
    (runTexts s texts).cache.entries.length ≤ suggestion_paths_cache_size := by
  induction texts generalizing s with
  | nil => exact h
  | cons t ts ih =>
      unfold runTexts
      rw [List.foldl_cons]
      exact ih _ (suggestions_cache_length h)

/-- On a full cache with pairwise-distinct keys, a miss evicts exactly the
least-recently-used (last) entry: its key is no longer present. -/
theorem lru_evicts_last {α β : Type} [DecidableEq α] (c : LruCache α β)
    (cap : Nat) (f : α → β) (k : α) (e : α × β)
    (hmiss : c.lookup k = none)
    (hfull : c.entries.length = cap)
    (hnodup : (c.entries.map Prod.fst).Nodup)
    (hlast : c.entries.getLast? = some e) :
    (c.call cap f k).2.lookup e.1 = none := by
  obtain ⟨-, h2⟩ := lru_call_miss c cap f k hmiss
  have hne : c.entries ≠ [] := by
    intro h0
    rw [h0] at hlast
    simp at hlast
  have hcap : 1 ≤ cap := by
    rw [← hfull]
    exact List.length_pos.mpr hne
  obtain ⟨cap', rfl⟩ : ∃ cap', cap = cap' + 1 := ⟨cap - 1, by omega⟩
  -- the cache after the call: the new entry followed by all but the last old entry
  have htake : c.entries.take cap' = c.entries.dropLast := by
    rw [List.dropLast_eq_take]
    congr 1
    omega
  have hsplit : c.entries.dropLast ++ [e] = c.entries :=
    List.dropLast_append_getLast? e hlast
  -- the evicted key differs from the inserted key
  have hek : e.1 ≠ k := by
    intro hek
    have hmem : e ∈ c.entries := List.mem_of_getLast?_eq_some hlast
    unfold LruCache.lookup at hmiss
    cases hx : c.entries.find? fun e' => decide (e'.1 = k) with
    | some e' => rw [hx] at hmiss; simp at hmiss
    | none =>
        have := List.find?_eq_none.mp hx e hmem
        simp [hek] at this
  -- the evicted key does not occur among the surviving old entries
  have hsurv : ∀ x ∈ c.entries.dropLast, x.1 ≠ e.1 := by
    intro x hx hxe
    have hnd : (List.map Prod.fst (c.entries.dropLast ++ [e])).Nodup := by
      rw [hsplit]
      exact hnodup
    rw [List.map_append, List.nodup_append] at hnd
    exact hnd.2.2 (List.mem_map_of_mem Prod.fst hx) (by simp [hxe])
  unfold LruCache.lookup
  rw [h2, List.take_succ_cons, htake]
  have hfind : ((k, f k) :: c.entries.dropLast).find?
      (fun e' => decide (e'.1 = e.1)) = none := by
    rw [List.find?_eq_none]
    intro x hx
    rcases List.mem_cons.mp hx with rfl | hx'
    · simp [Ne.symm hek]
    · simp [hsurv x hx']
  rw [hfind]
  rfl

theorem heap_get_set_ne (h : Heap) (id j : Nat) (v : PyObj) (hne : j ≠ id) :
    (h.set id v).get j = h.get j := by
  unfold Heap.get Heap.set
  simp only
  congr 1
  induction h.objs with
  | nil => rfl
  | cons e l ih =>
      by_cases he : e.1 = id
      · have : ¬ (id = j) := fun hh => hne hh.symm
        simp [List.find?_cons, he, this, Ne.symm hne, ih]
      · by_cases hej : e.1 = j
        · simp [List.find?_cons, he, hej, hne]
        · simp [List.find?_cons, he, hej, ih]

theorem heap_set_next (h : Heap) (id : Nat) (v : PyObj) :
    (h.set id v).next = h.next := rfl

theorem heap_set_wf {h : Heap} (hwf : h.Wf) (id : Nat) (v : PyObj) :
    (h.set id v).Wf := by
  intro e he
  unfold Heap.set at he
  rw [List.mem_map] at he
  obtain ⟨e', he', rfl⟩ := he
  have hlt := hwf e' he'
  show (if e'.1 = id then (id, v) else e').1 < h.next
  by_cases hx : e'.1 = id
  · simp only [hx, if_true]
    rw [← hx]
    exact hlt
  · simp only [hx, if_false]
    exact hlt

theorem allocInner_next (paths : List (List _SuggestionTree)) (h : Heap) :
    (allocInner paths h).2.next = h.next + paths.length := by
  induction paths generalizing h with
  | nil => simp [allocInner]
  | cons p rest ih =>
      simp only [allocInner]
      rw [ih]
      simp only [List.length_cons]
      omega

theorem allocInner_ids (paths : List (List _SuggestionTree)) (h : Heap) :
    ∀ i ∈ (allocInner paths h).1, h.next ≤ i ∧ i < h.next + paths.length := by
  induction paths generalizing h with
  | nil => simp [allocInner]
  | cons p rest ih =>
      intro i hi
      simp only [allocInner, List.mem_cons] at hi
      rcases hi with rfl | hi'
      · simp
      · have hb := ih (⟨h.objs ++ [(h.next,
          PyObj.listTerms (p.map fun n => n.term.getD ⟨""⟩))], h.next + 1⟩ : Heap) i hi'
        have hb' : h.next + 1 ≤ i ∧ i < h.next + 1 + rest.length := hb
        simp only [List.length_cons]
        omega

theorem allocInner_get_old (paths : List (List _SuggestionTree)) (h : Heap)
    (id : Nat) (hid : id < h.next) :
    (allocInner paths h).2.get id = h.get id := by
  induction paths generalizing h with
  | nil => rfl
  | cons p rest ih =>
      simp only [allocInner]
      rw [ih _ (show id < h.next + 1 by omega)]
      unfold Heap.get
      simp only
      rw [List.find?_append]
      have : List.find? (fun e => decide (e.1 = id))
          [(h.next, PyObj.listTerms (p.map fun n => n.term.getD ⟨""⟩))] = none := by
        simp only [List.find?]
        have : ¬ (h.next = id) := by omega
        simp [this]
      cases hx : h.objs.find? fun e => decide (e.1 = id) with
      | some e => simp [hx]
      | none => simp [hx, this]

theorem allocInner_wf {paths : List (List _SuggestionTree)} {h : Heap}
    (hwf : h.Wf) : (allocInner paths h).2.Wf := by
  induction paths generalizing h with
  | nil => exact hwf
  | cons p rest ih =>
      simp only [allocInner]
      apply ih
      intro e he
      simp only [List.mem_append, List.mem_singleton] at he
      rcases he with he' | rfl
      · have := hwf e he'
        simp only
        omega
      · simp

theorem allocInner_read {paths : List (List _SuggestionTree)} {h : Heap}
    (hwf : h.Wf) :
    readIds (allocInner paths h).2 (allocInner paths h).1 =
      paths.map fun p => some (p.map fun n => n.term.getD ⟨""⟩) := by
  induction paths generalizing h with
  | nil => rfl
  | cons p rest ih =>
      simp only [allocInner, readIds, List.map_cons]
      congr 1
      · -- head: the freshly allocated inner list reads back as its payload
        have hfresh : (allocInner rest
            (⟨h.objs ++ [(h.next, PyObj.listTerms (p.map fun n => n.term.getD ⟨""⟩))],
              h.next + 1⟩ : Heap)).2.get h.next =
            some (PyObj.listTerms (p.map fun n => n.term.getD ⟨""⟩)) := by
          rw [allocInner_get_old _ _ _ (show h.next < h.next + 1 by omega)]
          unfold Heap.get
          simp only
          rw [List.find?_append]
          have hnone : h.objs.find? (fun e => decide (e.1 = h.next)) = none := by
            rw [List.find?_eq_none]
            intro x hx
            have := hwf x hx
            simp only [decide_eq_true_eq]
            omega
          rw [hnone]
          simp [List.find?]
        rw [hfresh]
      · -- tail: induction over the remaining paths on the extended heap
        have hwf1 : (⟨h.objs ++ [(h.next, PyObj.listTerms
            (p.map fun n => n.term.getD ⟨""⟩))], h.next + 1⟩ : Heap).Wf := by
          intro e he
          simp only [List.mem_append, List.mem_singleton] at he
          rcases he with he' | rfl
          · have := hwf e he'
            simp only
            omega
          · simp
        exact ih hwf1

theorem heap_get_append_ne (objs : List (Nat × PyObj)) (n m : Nat)
    (e : Nat × PyObj) (id : Nat) (hne : id ≠ e.1) :
    (Heap.mk (objs ++ [e]) n).get id = (Heap.mk objs m).get id := by
  unfold Heap.get
  simp only
  rw [List.find?_append]
  cases hx : objs.find? fun x => decide (x.1 = id) with
  | some y => simp [hx]
  | none =>
      have : e.1 ≠ id := Ne.symm hne
      simp [hx, List.find?, this]

theorem heap_get_append_self (objs : List (Nat × PyObj)) (n : Nat)
    (e : Nat × PyObj)
    (hnone : objs.find? (fun x => decide (x.1 = e.1)) = none) :
    (Heap.mk (objs ++ [e]) n).get e.1 = some e.2 := by
  unfold Heap.get
  simp only
  rw [List.find?_append, hnone]
  simp [List.find?]

theorem allocSuggestions_outer (paths : List (List _SuggestionTree))
    (h : Heap) : (allocSuggestions paths h).1 = h.next + paths.length := by
  unfold allocSuggestions
  simp only
  exact allocInner_next paths h

theorem allocSuggestions_next (paths : List (List _SuggestionTree))
    (h : Heap) :
    (allocSuggestions paths h).2.next = h.next + paths.length + 1 := by
  unfold allocSuggestions
  simp only
  rw [allocInner_next]

theorem allocSuggestions_wf {paths : List (List _SuggestionTree)} {h : Heap}
    (hwf : h.Wf) : (allocSuggestions paths h).2.Wf := by
  unfold allocSuggestions
  intro e he
  simp only [List.mem_append, List.mem_singleton] at he
  rcases he with he' | rfl
  · have := @allocInner_wf paths _ hwf e he'
    simp only
    omega
  · simp

theorem allocSuggestions_get_old (paths : List (List _SuggestionTree))
    (h : Heap) (id : Nat) (hid : id < h.next) :
    (allocSuggestions paths h).2.get id = h.get id := by
  unfold allocSuggestions
  simp only
  have hlt : id < (allocInner paths h).2.next := by
    rw [allocInner_next]
    omega
  rw [heap_get_append_ne _ _ (allocInner paths h).2.next _ id (by omega)]
  have := allocInner_get_old paths h id hid
  unfold Heap.get at this ⊢
  exact this

theorem allocSuggestions_read {paths : List (List _SuggestionTree)} {h : Heap}
    (hwf : h.Wf) :
    readSuggestions (allocSuggestions paths h).2 (allocSuggestions paths h).1 =
      some ((projectTerms paths).map some) := by
  unfold readSuggestions
  have houter : (allocSuggestions paths h).2.get (allocSuggestions paths h).1 =
      some (.listRefs (allocInner paths h).1) := by
    unfold allocSuggestions
    simp only
    apply heap_get_append_self
    rw [List.find?_eq_none]
    intro x hx
    have := @allocInner_wf paths _ hwf x hx
    simp only [decide_eq_true_eq]
    omega
  rw [houter]
  dsimp only
  congr 1
  have hmap : ∀ id ∈ (allocInner paths h).1,
      (allocSuggestions paths h).2.get id = (allocInner paths h).2.get id := by
    intro id hid
    have hbound := allocInner_ids paths h id hid
    unfold allocSuggestions
    simp only
    apply heap_get_append_ne
    rw [allocInner_next]
    omega
  calc ((allocInner paths h).1.map fun id =>
          match (allocSuggestions paths h).2.get id with
          | some (.listTerms ts) => some ts
          | _ => none)
      = (allocInner paths h).1.map fun id =>
          match (allocInner paths h).2.get id with
          | some (.listTerms ts) => some ts
          | _ => none := by
        apply List.map_congr_left
        intro id hid
        rw [hmap id hid]
    _ = (projectTerms paths).map some := by
        have := @allocInner_read paths h hwf
        unfold readIds at this
        rw [this]
        unfold projectTerms
        rw [List.map_map]
        rfl

/-- C2: during expansion at position `p = n.end_index`, a candidate term
returned by the lookup is accepted as a child exactly when the space-joined
(clamped) token slice of its span is a literal string-prefix of its value;
consequently every accepted node's own token slice `[start_index,
end_index)` is a literal prefix of its term's value. -/
theorem claim2_acceptance_condition (wl : List String) (ti : TermIndex)
    (n : _SuggestionTree) (hin : InTree (_SuggestionTree.root wl ti) n) :
    (∀ t : Term, n.term = some t →
      strStartsWith t.value (String.intercalate " "
        ((wl.drop n.start_index).take (n.end_index - n.start_index))) = true) ∧
    (¬ wl.length ≤ n.end_index →
      ∀ t ∈ ti.search (wl.getD n.end_index ""),
        ((∃ c ∈ n.children, c.term = some t) ↔
          strStartsWith t.value (String.intercalate " "
            ((wl.drop n.end_index).take (wordCount t.value))) = true)) := by
  unfold _SuggestionTree.root at hin
  constructor
  · intro t ht
    rcases inTree_build (wl.length - 0) 0 none 0 n le_rfl hin with rfl | hok
    · rw [build_term] at ht
      cases ht
    · obtain ⟨t', ht', hlen, hacc, -⟩ := hok
      rw [ht] at ht'
      obtain rfl := Option.some.inj ht'
      unfold acceptCandidate at hacc
      have hsub : n.end_index - n.start_index = wordCount t.value := by omega
      rw [hsub]
      exact hacc
  · intro he t htsearch
    have hself := inTree_self_build hin
    constructor
    · rintro ⟨c, hc, hct⟩
      rw [hself] at hc
      rw [mem_children_build] at hc
      obtain ⟨-, t', -, hacc, rfl⟩ := hc
      rw [build_term] at hct
      obtain rfl := Option.some.inj hct
      unfold acceptCandidate at hacc
      exact hacc
    · intro hpre
      have hmem : _SuggestionTree.build wl ti (some t) n.end_index
          (n.end_index + wordCount t.value) ∈
          (_SuggestionTree.build wl ti n.term n.start_index n.end_index).children := by
        rw [mem_children_build]
        exact ⟨he, t, htsearch, hpre, rfl⟩
      rw [← hself] at hmem
      exact ⟨_, hmem, build_term ..⟩

/-- C2 witness: in the two-token input `"new york"` against the index
`{"new": [Term "new york"]}`, the root accepts `Term "new york"` because the
full slice `"new york"` is a prefix of the value. -/
theorem claim2_witness :
    ∃ c ∈ (_SuggestionTree.root (tokenize "new york") tiNY).children,
      c.term = some ⟨"new york"⟩ :=
  ((claim2_acceptance_condition (tokenize "new york") tiNY
      (_SuggestionTree.root (tokenize "new york") tiNY) InTree.refl).2
    (by decide) ⟨"new york"⟩ (by decide)).mpr (by decide)

/-- C5: a non-root node's `start_index` equals its parent's `end_index`;
each term-carrying node's span length is the word count of `term.value`;
the synthetic root has no term and `start_index = end_index = 0`. -/
theorem claim5_span_invariants (wl : List String) (ti : TermIndex) :
    (∀ n, InTree (_SuggestionTree.root wl ti) n →
      ∀ c ∈ n.children, c.start_index = n.end_index) ∧
    (∀ n, InTree (_SuggestionTree.root wl ti) n →
      ∀ t : Term, n.term = some t →
        n.end_index = n.start_index + wordCount t.value) ∧
    (_SuggestionTree.root wl ti).term = none ∧
    (_SuggestionTree.root wl ti).start_index = 0 ∧
    (_SuggestionTree.root wl ti).end_index = 0 := by
  refine ⟨?_, ?_, build_term .., build_start .., build_end ..⟩
  · intro n hin c hc
    unfold _SuggestionTree.root at hin
    have hself := inTree_self_build hin
    rw [hself] at hc
    exact (childOk_of_child hc).1
  · intro n hin t ht
    unfold _SuggestionTree.root at hin
    rcases inTree_build (wl.length - 0) 0 none 0 n le_rfl hin with rfl | hok
    · rw [build_term] at ht
      cases ht
    · obtain ⟨t', ht', hlen, -, -⟩ := hok
      rw [ht] at ht'
      obtain rfl := Option.some.inj ht'
      exact hlen

/-- C5 witness: in the `"new york"` scenario the root's single child spans
`[0, 2)` and its term `"new york"` counts two words. -/
theorem claim5_witness :
    ∀ c ∈ (_SuggestionTree.root (tokenize "new york") tiNY).children,
      c.start_index = (_SuggestionTree.root (tokenize "new york") tiNY).end_index :=
  (claim5_span_invariants (tokenize "new york") tiNY).1
    (_SuggestionTree.root (tokenize "new york") tiNY) InTree.refl

/-- C6: construction terminates: every accepted child strictly advances
`end_index`, expansion stops once `end_index` reaches the token count, and
the height of the tree is bounded by the token count. -/
theorem claim6_termination_bounds (wl : List String) (ti : TermIndex) :
    (∀ n, InTree (_SuggestionTree.root wl ti) n →
      ∀ c ∈ n.children, n.end_index < c.end_index) ∧
    (∀ n, InTree (_SuggestionTree.root wl ti) n →
      wl.length ≤ n.end_index → n.children = []) ∧
    (_SuggestionTree.root wl ti).height ≤ wl.length := by
  refine ⟨?_, ?_, ?_⟩
  · intro n hin c hc
    unfold _SuggestionTree.root at hin
    have hself := inTree_self_build hin
    rw [hself] at hc
    rw [mem_children_build] at hc
    obtain ⟨-, t, -, -, rfl⟩ := hc
    rw [build_end]
    have := wordCount_pos t.value
    omega
  · intro n hin hlen
    unfold _SuggestionTree.root at hin
    have hself := inTree_self_build hin
    rw [hself, build_unfold]
    simp [hlen, _SuggestionTree.children]
  · have := build_height wl ti none 0 0
    unfold _SuggestionTree.root
    omega

/-- C6 witness: the `"new york"` tree has height at most its two tokens. -/
theorem claim6_witness :
    (_SuggestionTree.root (tokenize "new york") tiNY).height ≤
      (tokenize "new york").length :=
  (claim6_termination_bounds (tokenize "new york") tiNY).2.2

/-- C7: the enumeration yields exactly the root-child-to-leaf paths
(synthetic root excluded), depth-first with children in stored order; in
particular with children `[A, B]` all `A`-rooted paths precede all
`B`-rooted ones. -/
theorem claim7_path_enumeration (a : Autocompleter) (input_text : String) :
    (∀ p, p ∈ a.enumerated_paths input_text ↔
      ∃ c ∈ (_SuggestionTree.root (tokenize input_text) a.term_index).children,
        LeafPath c p) ∧
    (∀ A B,
      (_SuggestionTree.root (tokenize input_text) a.term_index).children
        = [A, B] →
      a.enumerated_paths input_text = A.paths ++ B.paths) := by
  constructor
  · intro p
    exact mem_enumerated
  · intro A B hAB
    unfold Autocompleter.enumerated_paths
    rw [hAB]
    simp [List.flatMap_cons]

/-- C7 witness: the spec scenario `{"new": [Term "new york", Term
"new jersey"]}` with input `"new"`: the two root children's path blocks are
concatenated in lookup order. -/
theorem claim7_witness :
    Autocompleter.enumerated_paths ⟨tiNY, "\\W+"⟩ "new" =
      (_SuggestionTree.build (tokenize "new") tiNY (some ⟨"new york"⟩) 0 2).paths
        ++ (_SuggestionTree.build (tokenize "new") tiNY
              (some ⟨"new jersey"⟩) 0 2).paths :=
  (claim7_path_enumeration ⟨tiNY, "\\W+"⟩ "new").2 _ _ rfl

/-- C3: a path is kept exactly when it is an enumerated path whose last
node's `end_index` reaches the input's token count; hence every returned
term sequence's summed word count is at least the token count. -/
theorem claim3_coverage_invariant (a : Autocompleter) (input_text : String) :
    (∀ p, p ∈ a._suggestion_paths input_text ↔
      p ∈ a.enumerated_paths input_text ∧
        (tokenize input_text).length ≤ lastEndIndex p) ∧
    (∀ seq ∈ projectTerms (a._suggestion_paths input_text),
      (tokenize input_text).length ≤
        (seq.map fun t => wordCount t.value).sum) := by
  constructor
  · intro p
    unfold Autocompleter._suggestion_paths
    rw [List.mem_filter]
    simp
  · intro seq hseq
    unfold projectTerms at hseq
    rw [List.mem_map] at hseq
    obtain ⟨p, hp, rfl⟩ := hseq
    unfold Autocompleter._suggestion_paths at hp
    rw [List.mem_filter] at hp
    obtain ⟨hmem, hcov⟩ := hp
    have hsum := enumerated_lastEnd hmem
    rw [List.map_map]
    have hcomp : ((fun t : Term => wordCount t.value) ∘
        fun n : _SuggestionTree => n.term.getD ⟨""⟩) = nodeWordCount := by
      funext n
      rfl
    rw [hcomp, ← hsum]
    simpa using hcov

/-- C3 witness: input `"new york"` (two tokens) against
`{"new": [Term "new york", Term "new jersey"]}` returns `[Term "new york"]`,
whose word count 2 covers both tokens. -/
theorem claim3_witness :
    [(⟨"new york"⟩ : Term)] ∈
      projectTerms (Autocompleter._suggestion_paths ⟨tiNY, "\\W+"⟩ "new york") ∧
    (tokenize "new york").length ≤
      (([(⟨"new york"⟩ : Term)]).map fun t => wordCount t.value).sum :=
  ⟨by decide,
    (claim3_coverage_invariant ⟨tiNY, "\\W+"⟩ "new york").2
      [(⟨"new york"⟩ : Term)] (by decide)⟩

/-- C1 counterexample: with the index `{"ab": [Term "ab"]}` and input
`"ab cd"`, the enumeration has one path but the coverage filter removes it;
the cache entry written by the miss holds the *filtered* (empty) list, not
the enumerated one — so the cached value is not the full path enumeration. -/
theorem claim1_counterexample :
    (((AutocompleterState.init ⟨ti0, "\\W+"⟩).suggestion_paths "ab cd").2).cache.lookup "ab cd"
      = some (Autocompleter._suggestion_paths ⟨ti0, "\\W+"⟩ "ab cd") ∧
    (Autocompleter._suggestion_paths ⟨ti0, "\\W+"⟩ "ab cd").length = 0 ∧
    (Autocompleter.enumerated_paths ⟨ti0, "\\W+"⟩ "ab cd").length = 1 :=
  ⟨rfl, by decide, by decide⟩

/-- C1 (amended): on a miss the engine stores the *coverage-filtered* path
list in the cache — filtering happens inside the cached computation, before
storage, and the cached value equals the filtered enumeration. -/
theorem claim1_amended_cached_is_filtered (s : AutocompleterState)
    (input_text : String) (hmiss : s.cache.lookup input_text = none) :
    ((s.suggestion_paths input_text).2).cache.lookup input_text =
      some (s.autocompleter._suggestion_paths input_text) ∧
    s.autocompleter._suggestion_paths input_text =
      (s.autocompleter.enumerated_paths input_text).filter
        (fun path => (tokenize input_text).length ≤ lastEndIndex path) := by
  refine ⟨?_, rfl⟩
  unfold AutocompleterState.suggestion_paths
  exact lru_store_after_miss _ _ (by decide) _ _ hmiss

/-- C1 witness: the miss on `"ab cd"` from an empty cache stores the
filtered list. -/
theorem claim1_witness :
    (((AutocompleterState.init ⟨ti0, "\\W+"⟩).suggestion_paths "ab cd").2).cache.lookup "ab cd"
      = some (Autocompleter._suggestion_paths ⟨ti0, "\\W+"⟩ "ab cd") :=
  (claim1_amended_cached_is_filtered (AutocompleterState.init ⟨ti0, "\\W+"⟩)
    "ab cd" rfl).1

set_option maxRecDepth 40000 in
/-- C4 counterexample: the capacity is the class-level constant `128` and is
observably independent of every constructor argument (the constructor takes
only a term index and a split pattern); two engines constructed with
entirely different arguments both cap at 128, and after 129 distinct queries
the cache of a freshly constructed engine holds 128 entries with the oldest
text evicted — there is no constructor-time capacity option. -/
theorem claim4_counterexample :
    (Autocompleter.mk tiEmpty "CUSTOM").cache_capacity = 128 ∧
    (Autocompleter.mk tiNY "\\W+").cache_capacity = 128 ∧
    (runTexts (AutocompleterState.init ⟨tiEmpty, "\\W+"⟩) manyTexts).cache.entries.length = 128 ∧
    ((runTexts (AutocompleterState.init ⟨tiEmpty, "\\W+"⟩) manyTexts).cache.lookup "").isNone = true :=
  ⟨rfl, rfl, by decide, by decide⟩

/-- C4 (amended): the cache capacity is the class-level constant
`suggestion_paths_cache_size = 128` — the same for every constructed engine,
not a constructor option; the cache of a fresh engine never exceeds 128
entries however many texts are issued; a missed text is recomputed from the
engine body; and a miss on a full cache with distinct keys evicts exactly
the least-recently-used entry. -/
theorem claim4_amended_class_constant_bound :
    (∀ a : Autocompleter, a.cache_capacity = 128) ∧
    (∀ (a : Autocompleter) (texts : List String),
      (runTexts (AutocompleterState.init a) texts).cache.entries.length ≤ 128) ∧
    (∀ (s : AutocompleterState) (input_text : String),
      s.cache.lookup input_text = none →
      (s.suggestion_paths input_text).1 =
        s.autocompleter._suggestion_paths input_text) ∧
    (∀ (s : AutocompleterState) (input_text : String)
      (e : String × List (List _SuggestionTree)),
      s.cache.lookup input_text = none →
      s.cache.entries.length = 128 →
      (s.cache.entries.map Prod.fst).Nodup →
      s.cache.entries.getLast? = some e →
      ((s.suggestion_paths input_text).2).cache.lookup e.1 = none) := by
  refine ⟨fun a => rfl, ?_, ?_, ?_⟩
  · intro a texts
    exact runTexts_cache_length _ _ (by simp [AutocompleterState.init])
  · intro s input_text h
    unfold AutocompleterState.suggestion_paths
    exact (lru_call_miss _ _ _ _ h).1
  · intro s input_text e h1 h2 h3 h4
    unfold AutocompleterState.suggestion_paths
    exact lru_evicts_last _ _ _ _ _ h1 h2 h3 h4

set_option maxRecDepth 40000 in
/-- C4 witness: a full 128-entry cache with distinct keys, missed by a new
text, recomputes and evicts exactly its least-recently-used entry. -/
theorem claim4_witness :
    ((⟨⟨tiEmpty, "\\W+"⟩, ⟨fullEntries⟩⟩ : AutocompleterState).suggestion_paths "z").1
      = Autocompleter._suggestion_paths ⟨tiEmpty, "\\W+"⟩ "z" ∧
    (((⟨⟨tiEmpty, "\\W+"⟩, ⟨fullEntries⟩⟩ : AutocompleterState).suggestion_paths "z").2).cache.lookup
        (String.mk (List.replicate 127 'a')) = none :=
  ⟨claim4_amended_class_constant_bound.2.2.1
      ⟨⟨tiEmpty, "\\W+"⟩, ⟨fullEntries⟩⟩ "z" rfl,
    claim4_amended_class_constant_bound.2.2.2
      ⟨⟨tiEmpty, "\\W+"⟩, ⟨fullEntries⟩⟩ "z"
      (String.mk (List.replicate 127 'a'), []) rfl (by decide)
      (by decide) rfl⟩

/-- C8: with the (deterministic) embedded term index, two successive calls
of `suggestions` on the same input yield identical ordered output, the
second being served from the cache entry the first created or refreshed. -/
theorem claim8_idempotent (s : AutocompleterState) (input_text : String) :
    ((s.suggestions input_text).2.suggestions input_text).1 =
      (s.suggestions input_text).1 :=
  congrArg projectTerms
    (lru_find?_idem s.cache suggestion_paths_cache_size (by decide)
      s.autocompleter._suggestion_paths input_text)

/-- C9: a failing `search` propagates its error through `suggestions`
unchanged (never replaced by an empty result), and the cache is left
exactly as it was: the failed build is not stored. -/
theorem claim9_error_atomicity (s : AutocompleterStateE)
    (input_text err : String)
    (hmiss : s.cache.lookup input_text = none)
    (herr : s.autocompleter._suggestion_paths input_text = .error err) :
    s.suggestions input_text = (.error err, s) := by
  have hf : s.cache.entries.find? (fun e => decide (e.1 = input_text)) = none := by
    unfold LruCache.lookup at hmiss
    cases hx : s.cache.entries.find? fun e => decide (e.1 = input_text) with
    | none => rfl
    | some e =>
        rw [hx] at hmiss
        simp at hmiss
  unfold AutocompleterStateE.suggestions AutocompleterStateE.suggestion_paths
    LruCache.callE
  rw [hf, herr]

/-- C9 witness: an unavailable backing store on input `"ab"` surfaces the
error and leaves the empty cache untouched. -/
theorem claim9_witness :
    (⟨⟨tiFail, "\\W+"⟩, ⟨[]⟩⟩ : AutocompleterStateE).suggestions "ab"
      = (.error "backing store unavailable", ⟨⟨tiFail, "\\W+"⟩, ⟨[]⟩⟩) :=
  claim9_error_atomicity ⟨⟨tiFail, "\\W+"⟩, ⟨[]⟩⟩ "ab"
    "backing store unavailable" rfl rfl

/-- C10: each `suggestions` call allocates fresh outer and inner lists: the
returned ids all sit at or above the pre-call allocation counter; mutating
any such fresh object changes no pre-existing heap object (in particular
nothing the cache references, which all predates the call); and a later
call over the same cached path list reads back the same contents. -/
theorem claim10_fresh_lists (paths : List (List _SuggestionTree)) (h0 : Heap)
    (hwf : h0.Wf) (id : Nat) (v : PyObj) (hid : h0.next ≤ id) :
    (h0.next ≤ (allocSuggestions paths h0).1) ∧
    (∀ i ∈ (allocInner paths h0).1, h0.next ≤ i) ∧
    (readSuggestions (allocSuggestions paths h0).2 (allocSuggestions paths h0).1
      = some ((projectTerms paths).map some)) ∧
    (∀ oldId, oldId < h0.next →
      (((allocSuggestions paths h0).2).set id v).get oldId = h0.get oldId) ∧
    (readSuggestions
        (allocSuggestions paths (((allocSuggestions paths h0).2).set id v)).2
        (allocSuggestions paths (((allocSuggestions paths h0).2).set id v)).1
      = some ((projectTerms paths).map some)) := by
  refine ⟨?_, ?_, allocSuggestions_read hwf, ?_, ?_⟩
  · rw [allocSuggestions_outer]
    omega
  · intro i hi
    exact (allocInner_ids paths h0 i hi).1
  · intro oldId hold
    rw [heap_get_set_ne _ _ _ _ (by omega)]
    exact allocSuggestions_get_old paths h0 oldId hold
  · exact allocSuggestions_read (heap_set_wf (allocSuggestions_wf hwf) id v)

/-- C10 witness: one concrete round trip — allocate the `"new"` scenario's
two suggestion lists on an empty heap, clobber the first returned object,
and observe that a second allocation over the same cached paths still reads
back both suggestions. -/
theorem claim10_witness :
    readSuggestions
        (allocSuggestions (Autocompleter._suggestion_paths ⟨tiNY, "\\W+"⟩ "new")
          (((allocSuggestions (Autocompleter._suggestion_paths ⟨tiNY, "\\W+"⟩ "new")
              ⟨[], 0⟩).2).set 0 (.listTerms []))).2
        (allocSuggestions (Autocompleter._suggestion_paths ⟨tiNY, "\\W+"⟩ "new")
          (((allocSuggestions (Autocompleter._suggestion_paths ⟨tiNY, "\\W+"⟩ "new")
              ⟨[], 0⟩).2).set 0 (.listTerms []))).1
      = some ((projectTerms (Autocompleter._suggestion_paths ⟨tiNY, "\\W+"⟩ "new")).map some) :=
  (claim10_fresh_lists (Autocompleter._suggestion_paths ⟨tiNY, "\\W+"⟩ "new")
    ⟨[], 0⟩ (by intro e he; simp at he) 0 (.listTerms [])
    (show (0 : Nat) ≤ 0 from le_rfl)).2.2.2.2
